import Mathlib

/-!
# Verification of the prmpt serializer / injection parser / file writer

A shallow embedding, in Lean, of the core of the `prmpt` repository:

* the injection parser `InjectionParser::parse` and its helpers
  (`src/prmpt/inject_code.rs`),
* the file writer `Injector::inject_code_block` / `Injector::inject`
  (`src/prmpt/inject_code.rs`), over a lexical model of paths and a
  trace model of filesystem effects,
* the serializer fragment builder `process_file` (`src/curly/run.rs`),
* the ignore predicates `should_ignore` of `src/lib.rs` and of
  `src/curly/utils.rs`, over a model of `glob::Pattern` matching.

Rust `str` primitives (`trim`, `lines`, `split_whitespace`,
`starts_with`, ...) are modelled on `String.data` character lists.
Rust whitespace (`char::is_whitespace`) is modelled by
`Char.isWhitespace` (space, tab, CR, LF), which agrees with Rust on
ASCII input; the development only depends on these four characters.
-/

/-! ## Rust string primitives -/

/-- Model of Rust `str::trim_start` (drop leading whitespace). -/
def rustTrimLeft (s : String) : String :=
  ⟨s.data.dropWhile Char.isWhitespace⟩

/-- Model of Rust `str::trim_end` (drop trailing whitespace). -/
def rustTrimRight (s : String) : String :=
  ⟨(s.data.reverse.dropWhile Char.isWhitespace).reverse⟩

/-- Model of Rust `str::trim` (drop whitespace on both ends). -/
def rustTrim (s : String) : String :=
  rustTrimRight (rustTrimLeft s)

/-- Model of Rust `str::starts_with` for a string pattern. -/
def rustStartsWith (s pre : String) : Bool :=
  pre.data.isPrefixOf s.data

/-- Model of Rust `str::ends_with` for a string pattern. -/
def rustEndsWith (s suf : String) : Bool :=
  suf.data.isSuffixOf s.data

/-- Model of Rust `str::strip_prefix`: `some` of the remainder when
`pre` is a prefix of `s`, otherwise `none`. -/
def rustStripPre (s pre : String) : Option String :=
  if pre.data.isPrefixOf s.data then some ⟨s.data.drop pre.data.length⟩ else none

/-- Model of Rust `str::contains` for a single character. -/
def rustContainsChar (s : String) (c : Char) : Bool :=
  s.data.contains c

/-- Byte-slice `s[n..]` used by `extract_path`; the call sites only slice
off ASCII markers, so a character-level drop is exact. -/
def strDropL (s : String) (n : Nat) : String :=
  ⟨s.data.drop n⟩

/-- Byte-slice `s[..len-n]` used by `extract_path`; the call sites only
slice off ASCII markers, so a character-level drop is exact. -/
def strDropR (s : String) (n : Nat) : String :=
  ⟨s.data.take (s.data.length - n)⟩

/-- Accumulator-based worker for `split_whitespace`: `cur` holds the
current word reversed. -/
def wordsAux : List Char → List Char → List (List Char)
  | cur, [] => if cur.isEmpty then [] else [cur.reverse]
  | cur, c :: cs =>
    if c.isWhitespace then
      if cur.isEmpty then wordsAux [] cs else cur.reverse :: wordsAux [] cs
    else
      wordsAux (c :: cur) cs

/-- Model of Rust `str::split_whitespace`: maximal runs of
non-whitespace characters, empties discarded. -/
def splitWhitespace (s : String) : List String :=
  (wordsAux [] s.data).map fun l => ⟨l⟩

/-- Emit one line from the reversed accumulator of `linesAux`,
removing a single trailing `'\r'` (the `"\r\n"` line ending). -/
def emitLine : List Char → List Char
  | [] => []
  | c :: cur2 => if c = '\r' then cur2.reverse else (c :: cur2).reverse

/-- Worker for Rust `str::lines`: `cur` holds the current line reversed;
at `'\n'` the line is emitted with one trailing `'\r'` removed, and a
final unterminated line is emitted as-is. -/
def linesAux : List Char → List Char → List (List Char)
  | cur, [] => if cur.isEmpty then [] else [cur.reverse]
  | cur, c :: cs =>
    if c = '\n' then emitLine cur :: linesAux [] cs
    else linesAux (c :: cur) cs

/-- Model of Rust `str::lines`: split at `'\n'` or `"\r\n"`, the final
line terminator optional. -/
def rustLines (s : String) : List String :=
  (linesAux [] s.data).map fun l => ⟨l⟩

/-! ## The injection parser (`src/prmpt/inject_code.rs`)

`ParserState`, `CodeBlock`, `InjectionParser` and its `parse` method,
translated line by line.  The source fixes `let delimiter = "```"`
inside `parse`; the model exposes that local binding as the `delim`
parameter of the step function and of `parseLinesWith`, and `parse`
instantiates it with the literal `"```"` exactly as the source does. -/

/-- Parser states for processing injection file content. -/
inductive ParserState where
  | ExpectingPath
  | InCodeBlock
deriving DecidableEq, Repr

/-- A parsed code block with its target file path. -/
structure CodeBlock where
  target_path : String
  content : String
deriving DecidableEq, Repr

/-- The fields of `InjectionParser` (the running state of `parse`). -/
structure PState where
  state : ParserState
  currentTargetPath : Option String
  currentCodeBlock : String
  blocks : List CodeBlock
deriving DecidableEq, Repr

/-- `InjectionParser::new()`. -/
def PState.init : PState :=
  ⟨ParserState.ExpectingPath, none, "", []⟩

/-- `extract_path`: strip the `### `/`**`/backtick markup from a
path-announcement line (byte slices `[5..len-1]`, `[3..len-3]`,
`[1..len-1]` of the trimmed line). -/
def extract_path (input : String) : String :=
  let trimmed_input := rustTrim input
  if rustStartsWith trimmed_input "### `" && rustEndsWith trimmed_input "`" then
    strDropR (strDropL trimmed_input 5) 1
  else if rustStartsWith trimmed_input "**`" && rustEndsWith trimmed_input "`**" then
    strDropR (strDropL trimmed_input 3) 3
  else if rustStartsWith trimmed_input "`" && rustEndsWith trimmed_input "`" then
    strDropR (strDropL trimmed_input 1) 1
  else
    trimmed_input

/-- `extract_path_from_fence`: the optional path on the opening fence
line itself. -/
def extract_path_from_fence (line delim : String) : Option String :=
  match rustStripPre (rustTrimLeft line) delim with
  | none => none
  | some r =>
    let remainder := rustTrim r
    if remainder = "" then none
    else
      let tokens := splitWhitespace remainder
      if tokens.length = 1 then
        let t := tokens.headD ""
        if rustContainsChar t '/' || rustContainsChar t '.' then some t else none
      else
        tokens.getLast?

/-- `InjectionParser::is_path_line`: the three backtick-quoted
path-announcement conventions (`line.len() > 3` is a byte count; on the
ASCII markers involved `utf8ByteSize` is exact). -/
def is_path_line (line : String) : Bool :=
  (rustStartsWith (rustTrimLeft line) "### `" && rustEndsWith (rustTrimRight line) "`")
  || (rustStartsWith (rustTrimLeft line) "**`" && rustEndsWith (rustTrimRight line) "`**")
  || (rustStartsWith (rustTrimLeft line) "`" && rustEndsWith (rustTrimRight line) "`"
      && line.utf8ByteSize > 3)

/-- `InjectionParser::finalize_current_block`. -/
def finalize_current_block (s : PState) : PState :=
  match s.currentTargetPath with
  | some tp =>
    if rustTrim s.currentCodeBlock ≠ "" then
      { state := s.state
        currentTargetPath := none
        currentCodeBlock := ""
        blocks := s.blocks ++ [⟨tp, rustTrimRight s.currentCodeBlock⟩] }
    else
      { s with currentTargetPath := none, currentCodeBlock := "" }
  | none =>
    { s with currentTargetPath := none, currentCodeBlock := "" }

/-- One iteration of the `for line in content.lines()` loop of
`InjectionParser::parse`. -/
def parseStep (delim : String) (s : PState) (line : String) : PState :=
  match s.state with
  | ParserState.ExpectingPath =>
    if rustStartsWith (rustTrimLeft line) delim then
      let s1 :=
        match extract_path_from_fence line delim with
        | some p => { s with currentTargetPath := some p }
        | none => s
      { s1 with state := ParserState.InCodeBlock, currentCodeBlock := "" }
    else if is_path_line line then
      let extracted_path := extract_path line
      if rustTrim extracted_path ≠ "" then
        { s with currentTargetPath := some extracted_path }
      else
        { s with currentTargetPath := none }
    else
      let trimmed := rustTrim line
      if trimmed ≠ "" && !(rustStartsWith trimmed "#") && !(rustContainsChar trimmed ' ') then
        { s with currentTargetPath := some trimmed }
      else
        s
  | ParserState.InCodeBlock =>
    if rustStartsWith (rustTrimLeft line) delim then
      { finalize_current_block s with state := ParserState.ExpectingPath }
    else
      { s with currentCodeBlock := s.currentCodeBlock ++ line ++ "\n" }

/-- The loop of `InjectionParser::parse` over an explicit line list,
including the end-of-input flush, with the local `delimiter` binding
exposed as a parameter. -/
def parseLinesWith (delim : String) (ls : List String) : List CodeBlock :=
  (if (ls.foldl (parseStep delim) PState.init).state = ParserState.InCodeBlock then
     finalize_current_block (ls.foldl (parseStep delim) PState.init)
   else
     ls.foldl (parseStep delim) PState.init).blocks

/-- `InjectionParser::parse` with the delimiter parameter still exposed:
splits the content into Rust lines and runs the loop. -/
def parseWith (delim : String) (content : String) : List CodeBlock :=
  parseLinesWith delim (rustLines content)

/-- `InjectionParser::parse` exactly as in the source: the delimiter is
the hard-coded local `let delimiter = "```"`. -/
def parse (content : String) : List CodeBlock :=
  parseWith "```" content

/-! ## A lexical model of paths and of the file writer
(`Injector::inject` / `Injector::inject_code_block`,
`src/prmpt/inject_code.rs`)

Paths are modelled as Rust `Path` component lists (an absolute flag plus
the `Normal`/`ParentDir` components; `CurDir` and empty segments are
normalized away exactly as `Path::components` does on the joined
absolute paths the writer manipulates).  The filesystem is modelled by
the trace of mutating operations the writer performs, plus an
environment saying which primitive operations succeed.  `fs::canonicalize`
is modelled as lexical `..`-resolution: the model assumes a symlink-free
filesystem, and it is applied — as in the source — only to the base path
(given already canonical) and to a parent directory right after its
successful creation. -/

/-- A Rust `Path`: absoluteness plus the component list, `".."` kept as
a literal component, `"."` and empty segments dropped (as
`Path::components` does away from the start of a relative path). -/
structure RPath where
  abs : Bool
  comps : List String
deriving DecidableEq, Repr

/-- The empty path `Path::new("")`. -/
def RPath.empty : RPath := ⟨false, []⟩

/-- Split a character list at a separator, keeping empty segments. -/
def splitCharAux (sep : Char) : List Char → List Char → List (List Char)
  | cur, [] => [cur.reverse]
  | cur, c :: cs =>
    if c = sep then cur.reverse :: splitCharAux sep [] cs
    else splitCharAux sep (c :: cur) cs

/-- Parse a path string into an `RPath` (Unix separators). -/
def RPath.ofString (s : String) : RPath :=
  ⟨rustStartsWith s "/",
   ((splitCharAux '/' [] s.data).map fun l => (⟨l⟩ : String)).filter
     fun seg => seg ≠ "" && seg ≠ "."⟩

/-- `Path::join`: appending a relative path; an absolute right operand
replaces the left one. -/
def RPath.join (base rel : RPath) : RPath :=
  if rel.abs then rel else ⟨base.abs, base.comps ++ rel.comps⟩

/-- `Path::file_name`: the last component, unless the path ends in `..`
or has no components. -/
def RPath.fileName (p : RPath) : Option String :=
  match p.comps.getLast? with
  | none => none
  | some c => if c = ".." then none else some c

/-- `Path::parent`: the path without its final component. -/
def RPath.parentOf (p : RPath) : Option RPath :=
  if p.comps.isEmpty then none else some ⟨p.abs, p.comps.dropLast⟩

/-- Lexical `..`-resolution of an absolute path (the model of
`fs::canonicalize` on an existing, symlink-free directory). -/
def RPath.normalize (p : RPath) : RPath :=
  ⟨p.abs, p.comps.foldl (fun acc c => if c = ".." then acc.dropLast else acc ++ [c]) []⟩

/-- `Path::starts_with`: component-wise prefix. -/
def RPath.isUnder (p base : RPath) : Bool :=
  (base.abs == p.abs) && base.comps.isPrefixOf p.comps

/-- Append one filename component. -/
def RPath.child (p : RPath) (name : String) : RPath :=
  ⟨p.abs, p.comps ++ [name]⟩

/-- One mutating filesystem operation performed by the file writer. -/
inductive FsOp where
  | mkdirAll (p : RPath)
  | writeFile (p : RPath) (content : String)
  | rename (src dst : RPath)
  | removeFile (p : RPath)
deriving DecidableEq, Repr

/-- A block-scoped failure of `inject_code_block` (each `?`-propagated
error of the source). -/
inductive BlockErr where
  | createDirFailed
  | writeFailed
  | renameFailed
deriving DecidableEq, Repr

/-- Which primitive filesystem operations succeed: the environment the
run executes in. -/
structure FsEnv where
  createDirOk : RPath → Bool
  writeOk : RPath → Bool
  renameOk : RPath → RPath → Bool

/-- The value of the local `full_target_path` in `inject_code_block`:
`base_path_canon.join(&block.target_path)`. -/
def full_target_path (block : CodeBlock) (base : RPath) : RPath :=
  base.join (RPath.ofString block.target_path)

/-- The value of the local `parent_dir_for_file` in `inject_code_block`:
`full_target_path.parent().unwrap_or_else(|| Path::new(""))`. -/
def parent_dir_for_file (block : CodeBlock) (base : RPath) : RPath :=
  (full_target_path block base).parentOf.getD RPath.empty

/-- The temporary sibling file `.{filename}.tmp.{random}` next to the
final path. -/
def temp_file_path (canonParent : RPath) (fname rand : String) : RPath :=
  canonParent.child ("." ++ fname ++ ".tmp." ++ rand)

/-- The tail of `inject_code_block` from the security check on: given
the canonical parent directory and the filename, perform the check,
then the temp-file write and the rename.  Returns the performed
operations and the propagated error, if any. -/
def injectAfterParent (env : FsEnv) (rand : String) (block : CodeBlock) (base : RPath)
    (ops : List FsOp) (canonParent : RPath) (fname : String) :
    List FsOp × Option BlockErr :=
  if !((canonParent.child fname).isUnder base) then
    (ops, none)
  else if env.writeOk (temp_file_path canonParent fname rand) then
    if env.renameOk (temp_file_path canonParent fname rand) (canonParent.child fname) then
      (ops ++ [FsOp.writeFile (temp_file_path canonParent fname rand) block.content,
               FsOp.rename (temp_file_path canonParent fname rand) (canonParent.child fname)],
       none)
    else
      (ops ++ [FsOp.writeFile (temp_file_path canonParent fname rand) block.content,
               FsOp.removeFile (temp_file_path canonParent fname rand)],
       some BlockErr.renameFailed)
  else
    (ops, some BlockErr.writeFailed)

/-- `Injector::inject_code_block`: resolve the target under the
canonical base, extract the filename, ensure and canonicalize the
parent directory, then run the security check and the write.  `rand`
stands for the random temp-file suffix. -/
def inject_code_block (env : FsEnv) (rand : String) (block : CodeBlock) (base : RPath) :
    List FsOp × Option BlockErr :=
  match (full_target_path block base).fileName with
  | none => ([], none)
  | some target_filename =>
    if parent_dir_for_file block base = RPath.empty ∨ parent_dir_for_file block base = base then
      injectAfterParent env rand block base [] base target_filename
    else if env.createDirOk (parent_dir_for_file block base) then
      injectAfterParent env rand block base [FsOp.mkdirAll (parent_dir_for_file block base)]
        (parent_dir_for_file block base).normalize target_filename
    else
      ([], some BlockErr.createDirFailed)

/-- The `for block in code_blocks` loop of `Injector::inject`: the `?`
on `inject_code_block` aborts the run at the first block error. -/
def injectBlocks (env : FsEnv) (rand : String) (blocks : List CodeBlock) (base : RPath) :
    List FsOp × Except BlockErr Unit :=
  match blocks with
  | [] => ([], Except.ok ())
  | b :: rest =>
    match inject_code_block env rand b base with
    | (ops, some e) => (ops, Except.error e)
    | (ops, none) =>
      let r := injectBlocks env rand rest base
      (ops ++ r.1, r.2)

/-- `Injector::inject` after its two fatal preconditions succeed: the
repository root canonicalizes to `base` and the input document reads as
`content`. -/
def injectDoc (env : FsEnv) (rand : String) (content : String) (base : RPath) :
    List FsOp × Except BlockErr Unit :=
  injectBlocks env rand (parse content) base

/-- The final canonical file path the security check compares against
the base (the value of `final_file_path_canon`), independent of the
environment. -/
def resolvedFinal (block : CodeBlock) (base : RPath) : Option RPath :=
  (full_target_path block base).fileName.map fun fname =>
    RPath.child
      (if parent_dir_for_file block base = RPath.empty ∨ parent_dir_for_file block base = base
       then base
       else (parent_dir_for_file block base).normalize)
      fname

/-! ## The serializer fragments (`src/curly/run.rs`)

`process_file` builds each file's contribution to the output document
locally and the caller appends it; the model gives the built fragment.
In signature-only mode the tree-sitter extraction
(`extract_python_signatures`) is not embeddable, so the docs-only
fragment takes the extraction result as its `signatures` input and
models exactly what `process_file` does with it. -/

/-- Sequential concatenation of the per-file fragments (the `push_str`
accumulation of `process_directory_files`). -/
def strConcat : List String → String
  | [] => ""
  | x :: t => x ++ strConcat t

/-- The default branch of `process_file`: `{delim}{rel}\n{contents}\n{delim}\n\n`. -/
def process_file (delimiter relative_path contents : String) : String :=
  delimiter ++ relative_path ++ "\n" ++ contents ++ "\n" ++ delimiter ++ "\n\n"

/-- The docs-only branch of `process_file`, with the signature
extraction result passed in: a fragment is emitted only when the
extracted text is not whitespace-only. -/
def process_file_docs_only (delimiter relative_path signatures : String) : String :=
  if rustTrim signatures ≠ "" then
    delimiter ++ relative_path ++ "\n" ++ signatures ++ "\n" ++ delimiter ++ "\n\n"
  else
    ""

/-- The whole-document fragment sequence for a list of
(relative path, contents) files, full-content mode. -/
def serializeFiles (delimiter : String) (files : List (String × String)) : String :=
  strConcat (files.map fun f => process_file delimiter f.1 f.2)

/-- The whole-document fragment sequence in docs-only mode, each file
given as (relative path, extracted signatures). -/
def serializeDocsOnly (delimiter : String) (files : List (String × String)) : String :=
  strConcat (files.map fun f => process_file_docs_only delimiter f.1 f.2)

/-- `config.delimiter.as_deref().unwrap_or("```")` (`Generator::run`). -/
def resolveDelimiter (cfg : Option String) : String :=
  cfg.getD "```"

/-! ## A model of `glob::Pattern` matching (the `glob` crate)

`Pattern::matches` with the crate's default `MatchOptions`
(`require_literal_separator = false`, so `*` and `?` also match `/`).
`*` matches any character sequence, `?` any single character, any other
pattern character only itself.  Character classes (`[...]`) are outside
the model — a `[` is read as a literal character — so the model agrees
with `glob::Pattern::matches` exactly on class-free patterns; every
statement that relies on this literal reading of a symbolic pattern
carries an explicit no-`[` hypothesis, and every concrete pattern in
this development is class-free. -/

/-- Glob matching on character lists, by recursion on the pattern: a
`*` consumes an arbitrary prefix (any suffix of the subject may be
matched by the rest of the pattern). -/
def globMatchL : List Char → List Char → Bool
  | [], cs => cs.isEmpty
  | '*' :: ps, cs => cs.tails.any fun t => globMatchL ps t
  | '?' :: ps, cs =>
    (match cs with
     | [] => false
     | _ :: cs2 => globMatchL ps cs2)
  | p :: ps, cs =>
    (match cs with
     | [] => false
     | c :: cs2 => (p == c) && globMatchL ps cs2)

/-- `Pattern::matches` on strings. -/
def globMatch (pat s : String) : Bool :=
  globMatchL pat.data s.data

/-- Rust `Path::components`, rendered as the strings
`comp.as_os_str().to_string_lossy()` yields: the root directory as
`"/"`, `CurDir` kept only at the start of a relative path, empty
segments dropped. -/
def rustPathComponents (s : String) : List String :=
  let segs := ((splitCharAux '/' [] s.data).map fun l => (⟨l⟩ : String)).filter
    fun seg => seg ≠ ""
  if rustStartsWith s "/" then
    "/" :: segs.filter (fun seg => seg ≠ ".")
  else
    match segs with
    | x :: rest =>
      if x = "." then "." :: rest.filter (fun seg => seg ≠ ".")
      else segs.filter (fun seg => seg ≠ ".")
    | [] => []

/-- `should_ignore` of `src/lib.rs` (lines 284–295): a pattern excludes
the path when it glob-matches the whole path string
(`pattern.matches_path(path)`) or any single component. -/
def should_ignore_lib (path : String) (ignore_patterns : List String) : Bool :=
  ignore_patterns.any fun pat =>
    globMatch pat path
      || (rustPathComponents path).any fun comp => globMatch pat comp

/-- Last index of a character in a string (Rust `str::rfind`; the model
uses character positions, which name the same split point). -/
def lastIndexOfChar (s : String) (c : Char) : Option Nat :=
  match s.data.reverse.findIdx? (fun d => d = c) with
  | none => none
  | some j => some (s.data.length - 1 - j)

/-- Character-level `s[..n]`. -/
def strTake (s : String) (n : Nat) : String :=
  ⟨s.data.take n⟩

/-- `should_ignore` of `src/curly/utils.rs` (lines 72–125), applied to
the path already made relative to the base (the function returns
`false` when `strip_prefix` fails, and matches on the relative path
otherwise).  Patterns containing both `/` and `*` are split at the last
`/`; a `continue` in the source skips the standard glob match for that
pattern, a plain fall-through reaches it. -/
def should_ignore_curly (relative_path : String) (ignore_patterns : List String) : Bool :=
  ignore_patterns.any fun pattern_str =>
    if rustContainsChar pattern_str '/' && rustContainsChar pattern_str '*' then
      match lastIndexOfChar pattern_str '/' with
      | some last_slash_pos =>
        let dir_part := strTake pattern_str (last_slash_pos + 1)
        let file_pattern := strDropL pattern_str (last_slash_pos + 1)
        if file_pattern = "" then
          rustStartsWith relative_path dir_part
        else if rustStartsWith relative_path dir_part then
          let remaining_path := strDropL relative_path dir_part.data.length
          !(rustContainsChar remaining_path '/') && globMatch file_pattern remaining_path
        else
          globMatch pattern_str relative_path
      | none => globMatch pattern_str relative_path
    else
      globMatch pattern_str relative_path

/-! ## Auxiliary definitions used by the theorems -/

/-- A concrete all-succeeding filesystem environment. -/
def envAllOk : FsEnv :=
  ⟨fun _ => true, fun _ => true, fun _ _ => true⟩

/-- A filesystem environment in which every temp-file write fails. -/
def envNoWrite : FsEnv :=
  ⟨fun _ => true, fun _ => false, fun _ _ => true⟩

deriving instance DecidableEq for Except

/-- Concatenation of lines with `'\n'` terminators, character level. -/
def joinNlL : List (List Char) → List Char
  | [] => []
  | l :: t => l ++ '\n' :: joinNlL t

/-- Concatenation of lines with `"\n"` terminators. -/
def strJoinNl : List String → String
  | [] => ""
  | l :: t => l ++ "\n" ++ strJoinNl t

/-- The Rust lines of one serialized file fragment. -/
def fragLines (p c : String) : List String :=
  ("```" ++ p) :: (rustLines (c ++ "\n") ++ ["```", ""])

/-- The Rust lines of the whole fragment sequence. -/
def fragLinesAll : List (String × String) → List String
  | [] => []
  | f :: t => fragLines f.1 f.2 ++ fragLinesAll t

/-- The hypotheses under which one file round-trips through
serialization and parsing: a non-empty whitespace-free path containing
a `/` or a `.`, and contents that are not whitespace-only, contain no
carriage return, and have no line beginning (after leading whitespace)
with the delimiter. -/
def WellFormedFile (f : String × String) : Prop :=
  f.1 ≠ "" ∧ (∀ ch ∈ f.1.data, ch.isWhitespace = false) ∧
  (rustContainsChar f.1 '/' || rustContainsChar f.1 '.') = true ∧
  rustTrim f.2 ≠ "" ∧ (∀ ch ∈ f.2.data, ch ≠ '\r') ∧
  (∀ l ∈ rustLines (f.2 ++ "\n"), rustStartsWith (rustTrimLeft l) "```" = false)

/-! ## Helper lemmas about the parser step -/

theorem parseStep_close (s : PState) (hst : s.state = ParserState.InCodeBlock) :
    parseStep "```" s "```"
      = { finalize_current_block s with state := ParserState.ExpectingPath } := by
  obtain ⟨st, ctp, ccb, bl⟩ := s
  cases hst
  simp [parseStep, show rustStartsWith (rustTrimLeft "```") "```" = true from by decide]

theorem parseStep_expecting_nonfence (delim : String) (s : PState) (line : String)
    (hst : s.state = ParserState.ExpectingPath)
    (hnf : rustStartsWith (rustTrimLeft line) delim = false) :
    (parseStep delim s line).state = ParserState.ExpectingPath ∧
    (parseStep delim s line).blocks = s.blocks ∧
    (parseStep delim s line).currentCodeBlock = s.currentCodeBlock := by
  obtain ⟨st, ctp, ccb, bl⟩ := s
  cases hst
  simp only [parseStep, hnf, Bool.false_eq_true, if_false]
  split_ifs <;> simp

theorem foldl_expecting_nonfence (delim : String) (ls : List String)
    (h : ∀ l ∈ ls, rustStartsWith (rustTrimLeft l) delim = false) :
    ∀ s : PState, s.state = ParserState.ExpectingPath →
      (ls.foldl (parseStep delim) s).state = ParserState.ExpectingPath ∧
      (ls.foldl (parseStep delim) s).blocks = s.blocks ∧
      (ls.foldl (parseStep delim) s).currentCodeBlock = s.currentCodeBlock := by
  induction ls with
  | nil => exact fun s hs => ⟨hs, rfl, rfl⟩
  | cons x t ih =>
    intro s hs
    have hx := parseStep_expecting_nonfence delim s x hs (h x (by simp))
    have ht := ih (fun l hl => h l (by simp [hl])) (parseStep delim s x) hx.1
    exact ⟨ht.1, ht.2.1.trans hx.2.1, ht.2.2.trans hx.2.2⟩

/-! ## C4 — end-of-input flush -/

/-- C4: an input document that ends while the parser is still in the
`InCodeBlock` state is flushed exactly as a closing delimiter line
would flush it: appending one closing fence line to the line sequence
leaves the parsed block list unchanged (same pending path, same
trimmed content). -/
theorem c4_eof_flushes_like_closing_fence (ls : List String)
    (h : (ls.foldl (parseStep "```") PState.init).state = ParserState.InCodeBlock) :
    parseLinesWith "```" ls = parseLinesWith "```" (ls ++ ["```"]) := by
  unfold parseLinesWith
  rw [List.foldl_append]
  have hstep : List.foldl (parseStep "```") (ls.foldl (parseStep "```") PState.init) ["```"]
      = parseStep "```" (ls.foldl (parseStep "```") PState.init) "```" := rfl
  rw [hstep, parseStep_close _ h, if_pos h]
  simp [finalize_current_block]

/-- Witness for C4 at a concrete truncated input. -/
theorem c4_eof_flushes_like_closing_fence_witness :
    (["```a.txt", "hello"].foldl (parseStep "```") PState.init).state
        = ParserState.InCodeBlock
      ∧ parseLinesWith "```" ["```a.txt", "hello"]
          = parseLinesWith "```" (["```a.txt", "hello"] ++ ["```"]) :=
  ⟨by decide, c4_eof_flushes_like_closing_fence _ (by decide)⟩

/-! ## C7 — the fence-line path heuristic -/

theorem extract_path_from_fence_shape (line r : String)
    (hstrip : rustStripPre (rustTrimLeft line) "```" = some r)
    (hne : rustTrim r ≠ "") :
    extract_path_from_fence line "```"
      = (if (splitWhitespace (rustTrim r)).length = 1 then
           (if rustContainsChar ((splitWhitespace (rustTrim r)).headD "") '/'
               || rustContainsChar ((splitWhitespace (rustTrim r)).headD "") '.'
            then some ((splitWhitespace (rustTrim r)).headD "")
            else none)
         else (splitWhitespace (rustTrim r)).getLast?) := by
  unfold extract_path_from_fence
  rw [hstrip]
  simp only []
  rw [if_neg hne]

/-- C7: on a fence line with a non-empty remainder after the delimiter,
a single token is captured as the announced path exactly when it
contains a `/` or a `.`, and with two or more tokens the last token is
captured unconditionally. -/
theorem c7_fence_token_heuristic (line r : String)
    (hstrip : rustStripPre (rustTrimLeft line) "```" = some r)
    (hne : rustTrim r ≠ "") :
    ((splitWhitespace (rustTrim r)).length = 1 →
      extract_path_from_fence line "```"
        = (if rustContainsChar ((splitWhitespace (rustTrim r)).headD "") '/'
              || rustContainsChar ((splitWhitespace (rustTrim r)).headD "") '.'
           then some ((splitWhitespace (rustTrim r)).headD "")
           else none)) ∧
    (2 ≤ (splitWhitespace (rustTrim r)).length →
      extract_path_from_fence line "```" = (splitWhitespace (rustTrim r)).getLast?) := by
  have hshape := extract_path_from_fence_shape line r hstrip hne
  constructor
  · intro h1
    rw [hshape, if_pos h1]
  · intro h2
    rw [hshape, if_neg (by omega)]

/-- Witness for C7: a language tag plus a path takes the last token,
and a lone token with a `.` is taken as a path. -/
theorem c7_fence_token_heuristic_witness :
    extract_path_from_fence "```rust src/lib.rs" "```"
        = (splitWhitespace (rustTrim "rust src/lib.rs")).getLast?
      ∧ extract_path_from_fence "```rust src/lib.rs" "```" = some "src/lib.rs" :=
  ⟨(c7_fence_token_heuristic "```rust src/lib.rs" "rust src/lib.rs"
      (by decide) (by decide)).2 (by decide),
   by decide⟩

/-! ## C9 — docs-only mode emits nothing for an empty extraction -/

/-- C9: in docs-only mode a file whose signature extraction is
whitespace-only contributes zero bytes to the document: its fragment is
the empty string, and removing it from the file sequence leaves the
assembled docs-only document unchanged. -/
theorem c9_docs_only_empty_extraction_contributes_nothing
    (delimiter relative_path signatures : String)
    (before after : List (String × String))
    (h : rustTrim signatures = "") :
    process_file_docs_only delimiter relative_path signatures = "" ∧
    serializeDocsOnly delimiter (before ++ (relative_path, signatures) :: after)
      = serializeDocsOnly delimiter (before ++ after) := by
  have h1 : process_file_docs_only delimiter relative_path signatures = "" := by
    unfold process_file_docs_only
    simp [h]
  refine ⟨h1, ?_⟩
  unfold serializeDocsOnly
  induction before with
  | nil => simp [strConcat, h1, String.empty_append]
  | cons x t ih =>
    simp only [List.cons_append, List.map_cons, strConcat]
    exact congrArg (fun z => process_file_docs_only delimiter x.1 x.2 ++ z) ih

/-- Witness for C9 at a concrete file list. -/
theorem c9_docs_only_empty_extraction_contributes_nothing_witness :
    process_file_docs_only "```" "m.py" "  \n" = "" ∧
    serializeDocsOnly "```" ([("a.py", "def f():\n")] ++ ("m.py", "  \n") :: [])
      = serializeDocsOnly "```" ([("a.py", "def f():\n")] ++ []) :=
  c9_docs_only_empty_extraction_contributes_nothing "```" "m.py" "  \n"
    [("a.py", "def f():\n")] [] (by decide)

/-! ## C10 — a document with no fence line has no effect -/

/-- C8 counterexample: with the delimiter configured to `~~~`, a
document fenced with `~~~` yields no blocks from the injection parser
(which hard-codes the triple-backtick), although the same state machine
run with the configured token would parse one block. -/
theorem c8_decode_delimiter_not_configurable_cex :
    parse "~~~a.txt\nhello\n~~~" = [] ∧
    parseWith "~~~" "~~~a.txt\nhello\n~~~" = [⟨"a.txt", "hello"⟩] := by
  constructor
  · decide
  · decide

/-- C8 (amended): the delimiter defaults to a triple-backtick and is
configurable on the serialize side — a missing config delimiter
resolves to ``` and each file fragment opens with the configured token
— while the decode-side parser is not configurable: in the
path-expecting state a line is treated as an opening fence exactly when
it begins, after leading whitespace, with the literal triple-backtick. -/
theorem c8_delimiter_encode_configurable_decode_fixed
    (d p c line : String) (s : PState)
    (hst : s.state = ParserState.ExpectingPath) :
    resolveDelimiter none = "```" ∧
    rustStartsWith (process_file (resolveDelimiter (some d)) p c) d = true ∧
    ((parseStep "```" s line).state = ParserState.InCodeBlock
      ↔ rustStartsWith (rustTrimLeft line) "```" = true) := by
  refine ⟨rfl, ?_, ?_⟩
  · simp [process_file, resolveDelimiter, rustStartsWith, List.isPrefixOf_iff_prefix,
      String.data_append, List.append_assoc]
  · cases hb : rustStartsWith (rustTrimLeft line) "```" with
    | false =>
      have hstep := parseStep_expecting_nonfence "```" s line hst hb
      rw [hstep.1]
      simp
    | true =>
      obtain ⟨st, ctp, ccb, bl⟩ := s
      cases hst
      cases hext : extract_path_from_fence line "```" <;> simp [parseStep, hb, hext]

/-- Witness for C8 (amended) at concrete inputs. -/
theorem c8_delimiter_encode_configurable_decode_fixed_witness :
    resolveDelimiter none = "```" ∧
    rustStartsWith (process_file (resolveDelimiter (some "~~~")) "a.txt" "hi") "~~~" = true ∧
    ((parseStep "```" PState.init "```x.y").state = ParserState.InCodeBlock
      ↔ rustStartsWith (rustTrimLeft "```x.y") "```" = true) :=
  c8_delimiter_encode_configurable_decode_fixed "~~~" "a.txt" "hi" "```x.y" PState.init rfl

/-! ## C5 / C6 — ignore-rule semantics -/

theorem globMatchL_literal :
    ∀ ps cs : List Char, '*' ∉ ps → '?' ∉ ps →
      (globMatchL ps cs = true ↔ ps = cs) := by
  intro ps
  induction ps with
  | nil =>
    intro cs _ _
    rw [show globMatchL [] cs = cs.isEmpty from rfl]
    cases cs <;> simp
  | cons p ps ih =>
    intro cs hstar hq
    have hp1 : p ≠ '*' := fun h => hstar (by simp [h])
    have hp2 : p ≠ '?' := fun h => hq (by simp [h])
    have hs2 : '*' ∉ ps := fun h => hstar (List.mem_cons_of_mem _ h)
    have hq2 : '?' ∉ ps := fun h => hq (List.mem_cons_of_mem _ h)
    rcases cs with _ | ⟨c, cs⟩
    · simp [globMatchL, hp1]
    · simp [globMatchL, hp1, hp2, ih cs hs2 hq2, List.cons_eq_cons]

theorem endsWithSlash_split (r : String) (h : rustEndsWith r "/" = true) :
    ∃ a : List Char, r.data = a ++ ['/'] := by
  unfold rustEndsWith at h
  rw [show ("/" : String).data = ['/'] from rfl, List.isSuffixOf_iff_suffix] at h
  obtain ⟨a, ha⟩ := h
  exact ⟨a, ha.symm⟩

theorem lastIndexOf_of_endsSlash (r : String) (a : List Char) (ha : r.data = a ++ ['/']) :
    lastIndexOfChar r '/' = some a.length := by
  unfold lastIndexOfChar
  rw [ha]
  simp [List.findIdx?_cons]

/-- C5 (amended): in `should_ignore` of `src/curly/utils.rs`, a rule
ending in `/` that contains a `*` matches exactly the paths of which
the full rule text (wildcard characters included, taken literally by
the `starts_with` in that branch) is a prefix; a rule ending in `/`
with no wildcard — no `*`, no `?`, and no `[...]` character class, so
the pattern is all-literal — matches only the path equal to the rule
text itself.  In particular `build/` excludes neither `build/out.o`
nor `src/build/x.c`.  The no-`[` hypothesis confines the second part
to the class-free fragment on which the glob model coincides with
`glob::Pattern::matches`. -/
theorem c5_dir_rule_is_literal_or_equality (r rel : String)
    (hslash : rustEndsWith r "/" = true) :
    (rustContainsChar r '*' = true →
       should_ignore_curly rel [r] = rustStartsWith rel r) ∧
    (rustContainsChar r '*' = false → rustContainsChar r '?' = false →
       rustContainsChar r '[' = false →
       (should_ignore_curly rel [r] = true ↔ rel = r)) := by
  obtain ⟨a, ha⟩ := endsWithSlash_split r hslash
  have hcontains : rustContainsChar r '/' = true := by
    unfold rustContainsChar
    rw [ha]
    simp
  constructor
  · intro hstar
    unfold should_ignore_curly
    simp only [List.any_cons, List.any_nil, Bool.or_false]
    rw [if_pos (by rw [hcontains, hstar]; rfl)]
    rw [lastIndexOf_of_endsSlash r a ha]
    have hTake : strTake r (a.length + 1) = r := by
      apply String.ext
      show (r.data).take (a.length + 1) = r.data
      rw [ha, show a.length + 1 = (a ++ ['/']).length by simp]
      exact List.take_length _
    have hDrop : strDropL r (a.length + 1) = "" := by
      apply String.ext
      show (r.data).drop (a.length + 1) = []
      rw [ha, show a.length + 1 = (a ++ ['/']).length by simp]
      exact List.drop_length _
    simp [hTake, hDrop]
  · intro hstar hq _hbr
    unfold should_ignore_curly
    simp only [List.any_cons, List.any_nil, Bool.or_false]
    rw [if_neg (by simp [hstar])]
    unfold globMatch
    have hstar2 : '*' ∉ r.data := by simpa [rustContainsChar] using hstar
    have hq2 : '?' ∉ r.data := by simpa [rustContainsChar] using hq
    rw [globMatchL_literal r.data rel.data hstar2 hq2, String.ext_iff]
    exact eq_comm

/-- C5 counterexample: the rule `build/` does NOT exclude
`build/out.o`, contrary to the claimed literal-prefix semantics. -/
theorem c5_dir_rule_prefix_cex :
    should_ignore_curly "build/out.o" ["build/"] = false := by decide

/-- Witness for C5 (amended): the characterization applied to the rule
`build/` and the path `src/build/x.c`. -/
theorem c5_dir_rule_is_literal_or_equality_witness :
    should_ignore_curly "src/build/x.c" ["build/"] = false := by
  have h := (c5_dir_rule_is_literal_or_equality "build/" "src/build/x.c"
    (by decide)).2 (by decide) (by decide) (by decide)
  by_cases hb : should_ignore_curly "src/build/x.c" ["build/"] = true
  · exact absurd (h.mp hb) (by decide)
  · simp only [Bool.not_eq_true] at hb
    exact hb

/-- C6 counterexample: in `should_ignore` of `src/lib.rs` the rule
`a*b` (no `/`) excludes the path `a/b` through the whole-path glob
match (`*` crosses `/`), although no single path segment glob-matches
the rule — refuting the claimed "if and only if some segment matches". -/
theorem c6_segment_iff_cex :
    should_ignore_lib "a/b" ["a*b"] = true ∧
    ((rustPathComponents "a/b").any fun comp => globMatch "a*b" comp) = false := by
  constructor
  · decide
  · decide

/-- C6 (amended): in `should_ignore` of `src/lib.rs` a matching path
segment always excludes the path (and the whole-path glob match can
exclude further paths); the claimed examples hold there — `target`
excludes `target/` and `a/target/b` and not `targets` — while
`should_ignore` of `src/curly/utils.rs` matches a slash-free rule only
against the entire relative path. -/
theorem c6_segment_match_excludes (pat path pat2 rel : String)
    (hseg : ((rustPathComponents path).any fun comp => globMatch pat comp) = true)
    (hnoslash : rustContainsChar pat2 '/' = false) :
    should_ignore_lib path [pat] = true ∧
    should_ignore_curly rel [pat2] = globMatch pat2 rel ∧
    should_ignore_lib "target/" ["target"] = true ∧
    should_ignore_lib "a/target/b" ["target"] = true ∧
    should_ignore_lib "targets" ["target"] = false := by
  refine ⟨?_, ?_, by decide, by decide, by decide⟩
  · unfold should_ignore_lib
    simp only [List.any_cons, List.any_nil, Bool.or_false]
    rw [hseg]
    simp
  · unfold should_ignore_curly
    simp only [List.any_cons, List.any_nil, Bool.or_false]
    rw [if_neg (by simp [hnoslash])]

/-- Witness for C6 (amended) at concrete inputs. -/
theorem c6_segment_match_excludes_witness :
    should_ignore_lib "a/target/b" ["target"] = true ∧
    should_ignore_curly "x/y" ["target"] = globMatch "target" "x/y" ∧
    should_ignore_lib "target/" ["target"] = true ∧
    should_ignore_lib "a/target/b" ["target"] = true ∧
    should_ignore_lib "targets" ["target"] = false :=
  c6_segment_match_excludes "target" "a/target/b" "target" "x/y" (by decide) (by decide)

/-! ## C1 / C3 — the file writer: security check and failure scoping -/

theorem injectBlocks_cons_ok (env : FsEnv) (rand : String) (b : CodeBlock)
    (rest : List CodeBlock) (base : RPath)
    (h : (inject_code_block env rand b base).2 = none) :
    injectBlocks env rand (b :: rest) base
      = ((inject_code_block env rand b base).1 ++ (injectBlocks env rand rest base).1,
         (injectBlocks env rand rest base).2) := by
  cases hx : inject_code_block env rand b base with
  | mk ops err =>
    rw [hx] at h
    simp only at h
    cases h
    simp [injectBlocks, hx]

theorem injectBlocks_cons_err (env : FsEnv) (rand : String) (b : CodeBlock)
    (rest : List CodeBlock) (base : RPath) (e : BlockErr)
    (h : (inject_code_block env rand b base).2 = some e) :
    injectBlocks env rand (b :: rest) base
      = ((inject_code_block env rand b base).1, Except.error e) := by
  cases hx : inject_code_block env rand b base with
  | mk ops err =>
    rw [hx] at h
    simp only at h
    cases h
    simp [injectBlocks, hx]

theorem inject_code_block_violation (env : FsEnv) (rand : String) (b : CodeBlock)
    (base : RPath) (f : RPath)
    (hdirs : ∀ p, env.createDirOk p = true)
    (hres : resolvedFinal b base = some f)
    (hout : RPath.isUnder f base = false) :
    inject_code_block env rand b base = ([], none) ∨
    ∃ q, inject_code_block env rand b base = ([FsOp.mkdirAll q], none) := by
  unfold resolvedFinal at hres
  cases hfn : (full_target_path b base).fileName with
  | none =>
    rw [hfn] at hres
    simp at hres
  | some fname =>
    rw [hfn] at hres
    simp only [Option.map_some', Option.some.injEq] at hres
    simp only [inject_code_block, hfn]
    by_cases hpd : parent_dir_for_file b base = RPath.empty ∨ parent_dir_for_file b base = base
    · left
      rw [if_pos hpd]
      rw [if_pos hpd] at hres
      unfold injectAfterParent
      rw [if_pos (by simp [hres, hout])]
    · right
      refine ⟨parent_dir_for_file b base, ?_⟩
      rw [if_neg hpd]
      rw [if_neg hpd] at hres
      rw [if_pos (hdirs _)]
      unfold injectAfterParent
      rw [if_pos (by simp [hres, hout])]

/-- C1 counterexample: for the block with target path `../evil/f.txt`
(whose final path canonicalizes outside the root `/repo/base`), the
injector still performs a filesystem write for that block — it creates
the parent directory, whose canonical location `/repo/evil` is outside
the repository root — before the security check skips the file write. -/
theorem c1_mkdir_outside_root_cex :
    inject_code_block envAllOk "XYZ" ⟨"../evil/f.txt", "x"⟩ ⟨true, ["repo", "base"]⟩
      = ([FsOp.mkdirAll ⟨true, ["repo", "base", "..", "evil"]⟩], none) ∧
    RPath.isUnder (RPath.normalize ⟨true, ["repo", "base", "..", "evil"]⟩)
        ⟨true, ["repo", "base"]⟩ = false ∧
    resolvedFinal ⟨"../evil/f.txt", "x"⟩ ⟨true, ["repo", "base"]⟩
      = some ⟨true, ["repo", "evil", "f.txt"]⟩ ∧
    RPath.isUnder ⟨true, ["repo", "evil", "f.txt"]⟩ ⟨true, ["repo", "base"]⟩ = false := by
  refine ⟨by decide, by decide, by decide, by decide⟩

/-- C1 (amended): for a block whose final canonical path fails the
root-prefix check, the injector performs no file write for that block
(its trace holds directory creations only, never a temp-file write or
a rename), the block error slot stays empty (the violation is only
logged), and the run continues with the remaining blocks; the parent
directories for the block are created before the check and may lie
outside the root. -/
theorem c1_outside_block_no_file_write (env : FsEnv) (rand : String) (b : CodeBlock)
    (base : RPath) (rest : List CodeBlock) (f : RPath)
    (hdirs : ∀ p, env.createDirOk p = true)
    (hres : resolvedFinal b base = some f)
    (hout : RPath.isUnder f base = false) :
    (∀ op ∈ (inject_code_block env rand b base).1, ∃ q, op = FsOp.mkdirAll q) ∧
    (inject_code_block env rand b base).2 = none ∧
    injectBlocks env rand (b :: rest) base
      = ((inject_code_block env rand b base).1 ++ (injectBlocks env rand rest base).1,
         (injectBlocks env rand rest base).2) := by
  rcases inject_code_block_violation env rand b base f hdirs hres hout with h | ⟨q, h⟩
  · refine ⟨?_, by rw [h], injectBlocks_cons_ok env rand b rest base (by rw [h])⟩
    rw [h]
    intro op hop
    exact absurd hop (by simp)
  · refine ⟨?_, by rw [h], injectBlocks_cons_ok env rand b rest base (by rw [h])⟩
    rw [h]
    intro op hop
    simp only [List.mem_singleton] at hop
    exact ⟨q, hop⟩

/-- Witness for C1 (amended) at a concrete escaping block. -/
theorem c1_outside_block_no_file_write_witness :
    (∀ op ∈ (inject_code_block envAllOk "R" ⟨"../evil2/g.txt", "y"⟩ ⟨true, ["repo", "base"]⟩).1,
        ∃ q, op = FsOp.mkdirAll q) ∧
    (inject_code_block envAllOk "R" ⟨"../evil2/g.txt", "y"⟩ ⟨true, ["repo", "base"]⟩).2 = none ∧
    injectBlocks envAllOk "R" (⟨"../evil2/g.txt", "y"⟩ :: []) ⟨true, ["repo", "base"]⟩
      = ((inject_code_block envAllOk "R" ⟨"../evil2/g.txt", "y"⟩ ⟨true, ["repo", "base"]⟩).1
           ++ (injectBlocks envAllOk "R" [] ⟨true, ["repo", "base"]⟩).1,
         (injectBlocks envAllOk "R" [] ⟨true, ["repo", "base"]⟩).2) :=
  c1_outside_block_no_file_write envAllOk "R" ⟨"../evil2/g.txt", "y"⟩ ⟨true, ["repo", "base"]⟩
    [] ⟨true, ["repo", "evil2", "g.txt"]⟩ (fun _ => rfl) (by decide) (by decide)

/-- C3 counterexample: a temp-file write failure on the first block —
a block-scoped failure in the claim's taxonomy — aborts the whole run
(`Except.error`), so the second block is never processed; in an
environment where writes succeed that second block would have produced
a write and a rename. -/
theorem c3_write_failure_aborts_cex :
    injectBlocks envNoWrite "R" [⟨"a.txt", "x"⟩, ⟨"b.txt", "y"⟩] ⟨true, ["r"]⟩
      = ([], Except.error BlockErr.writeFailed) ∧
    injectBlocks envAllOk "R" [⟨"b.txt", "y"⟩] ⟨true, ["r"]⟩
      = ([FsOp.writeFile ⟨true, ["r", ".b.txt.tmp.R"]⟩ "y",
          FsOp.rename ⟨true, ["r", ".b.txt.tmp.R"]⟩ ⟨true, ["r", "b.txt"]⟩],
         Except.ok ()) := by
  refine ⟨by decide, by decide⟩

/-- C3 (amended): only filename-extraction failure and the
security-prefix violation are block-scoped — they leave the block
error slot empty and the loop continues with the remaining blocks —
while a directory-creation, write, or rename failure is propagated by
the `?` operator and aborts the whole run at that block. -/
theorem c3_skip_continues_error_aborts (env : FsEnv) (rand : String) (b : CodeBlock)
    (rest : List CodeBlock) (base : RPath) :
    ((inject_code_block env rand b base).2 = none →
      injectBlocks env rand (b :: rest) base
        = ((inject_code_block env rand b base).1 ++ (injectBlocks env rand rest base).1,
           (injectBlocks env rand rest base).2)) ∧
    (∀ e, (inject_code_block env rand b base).2 = some e →
      injectBlocks env rand (b :: rest) base
        = ((inject_code_block env rand b base).1, Except.error e)) ∧
    ((full_target_path b base).fileName = none →
      inject_code_block env rand b base = ([], none)) ∧
    (∀ f, resolvedFinal b base = some f → RPath.isUnder f base = false →
      (∀ p, env.createDirOk p = true) →
      (inject_code_block env rand b base).2 = none) := by
  refine ⟨injectBlocks_cons_ok env rand b rest base,
          fun e he => injectBlocks_cons_err env rand b rest base e he, ?_, ?_⟩
  · intro hfn
    unfold inject_code_block
    rw [hfn]
  · intro f hres hout hdirs
    rcases inject_code_block_violation env rand b base f hdirs hres hout with h | ⟨q, h⟩ <;>
      rw [h]

/-- Witness for C3 (amended): the abort conjunct applied to a concrete
write failure, and the skip conjunct applied to a concrete
filename-extraction failure (a target ending in `..`). -/
theorem c3_skip_continues_error_aborts_witness :
    injectBlocks envNoWrite "R" [⟨"c.txt", "z"⟩, ⟨"d.txt", "w"⟩] ⟨true, ["r"]⟩
      = ((inject_code_block envNoWrite "R" ⟨"c.txt", "z"⟩ ⟨true, ["r"]⟩).1,
         Except.error BlockErr.writeFailed) ∧
    inject_code_block envAllOk "R" ⟨"..", "z"⟩ ⟨true, ["r"]⟩ = ([], none) :=
  ⟨(c3_skip_continues_error_aborts envNoWrite "R" ⟨"c.txt", "z"⟩ [⟨"d.txt", "w"⟩]
      ⟨true, ["r"]⟩).2.1 BlockErr.writeFailed (by decide),
   (c3_skip_continues_error_aborts envAllOk "R" ⟨"..", "z"⟩ [] ⟨true, ["r"]⟩).2.2.1
     (by decide)⟩

/-! ## C2 — the round-trip `inject(serialize(F))` -/

theorem emitLine_of_no_cr (cur : List Char) (h : ∀ ch ∈ cur, ch ≠ '\r') :
    emitLine cur = cur.reverse := by
  cases cur with
  | nil => rfl
  | cons c t => simp [emitLine, h c (List.mem_cons_self c t)]

theorem linesAux_nil (cur : List Char) :
    linesAux cur [] = if cur.isEmpty then [] else [cur.reverse] := rfl

theorem linesAux_cons (cur : List Char) (c : Char) (cs : List Char) :
    linesAux cur (c :: cs)
      = if c = '\n' then emitLine cur :: linesAux [] cs else linesAux (c :: cur) cs := rfl

theorem joinNlL_cons (l : List Char) (t : List (List Char)) :
    joinNlL (l :: t) = l ++ '\n' :: joinNlL t := rfl

theorem linesAux_append (a : List Char) :
    ∀ cur b : List Char,
      linesAux cur (a ++ '\n' :: b) = linesAux cur (a ++ ['\n']) ++ linesAux [] b := by
  induction a with
  | nil =>
    intro cur b
    rw [List.nil_append, List.nil_append, linesAux_cons, if_pos rfl, linesAux_cons, if_pos rfl,
      linesAux_nil]
    simp
  | cons c a ih =>
    intro cur b
    rw [List.cons_append, List.cons_append, linesAux_cons, linesAux_cons]
    by_cases hc : c = '\n'
    · rw [if_pos hc, if_pos hc, ih [] b]
      simp
    · rw [if_neg hc, if_neg hc, ih (c :: cur) b]

theorem linesAux_noNl (a : List Char) :
    ∀ cur b : List Char, (∀ ch ∈ a, ch ≠ '\n') →
      linesAux cur (a ++ b) = linesAux (a.reverse ++ cur) b := by
  induction a with
  | nil =>
    intro cur b _
    rw [List.nil_append]
    simp
  | cons c a ih =>
    intro cur b h
    rw [List.cons_append, linesAux_cons, if_neg (h c (List.mem_cons_self c a)),
      ih (c :: cur) b fun x hx => h x (List.mem_cons_of_mem c hx)]
    congr 1
    simp

theorem linesAux_single (x : List Char) (hnl : ∀ ch ∈ x, ch ≠ '\n')
    (hcr : ∀ ch ∈ x, ch ≠ '\r') :
    linesAux [] (x ++ ['\n']) = [x] := by
  rw [linesAux_noNl x [] ['\n'] hnl, List.append_nil, linesAux_cons, if_pos rfl, linesAux_nil]
  have hemit : emitLine x.reverse = x := by
    rw [emitLine_of_no_cr _ fun ch hch => hcr ch (List.mem_reverse.mp hch),
      List.reverse_reverse]
  rw [hemit]
  simp

theorem joinNlL_linesAux (a : List Char) :
    ∀ cur : List Char, (∀ ch ∈ a, ch ≠ '\r') → (∀ ch ∈ cur, ch ≠ '\r') →
      joinNlL (linesAux cur (a ++ ['\n'])) = cur.reverse ++ a ++ ['\n'] := by
  induction a with
  | nil =>
    intro cur _ hcur
    rw [List.nil_append, linesAux_cons, if_pos rfl, linesAux_nil, joinNlL_cons,
      emitLine_of_no_cr cur hcur]
    simp [joinNlL]
  | cons c a ih =>
    intro cur hcr hcur
    have ht : ∀ ch ∈ a, ch ≠ '\r' := fun x hx => hcr x (List.mem_cons_of_mem _ hx)
    rw [List.cons_append, linesAux_cons]
    by_cases hc : c = '\n'
    · subst hc
      rw [if_pos rfl, joinNlL_cons, emitLine_of_no_cr cur hcur, ih [] ht (by simp)]
      simp
    · have hcur2 : ∀ ch ∈ c :: cur, ch ≠ '\r' := by
        intro x hx
        rcases List.mem_cons.mp hx with h | h
        · exact h ▸ hcr c (List.mem_cons_self c a)
        · exact hcur x h
      rw [if_neg hc, ih (c :: cur) ht hcur2]
      simp

theorem rustLines_append_of_trailNl (s t : String) (a : List Char)
    (ha : s.data = a ++ ['\n']) :
    rustLines (s ++ t) = rustLines s ++ rustLines t := by
  unfold rustLines
  rw [String.data_append, ha, List.append_assoc, List.singleton_append, linesAux_append]
  simp

theorem strJoinNl_data (ls : List String) :
    (strJoinNl ls).data = joinNlL (ls.map String.data) := by
  induction ls with
  | nil => rfl
  | cons l t ih =>
    simp [strJoinNl, joinNlL, String.data_append, ih]

theorem map_data_rustLines (s : String) :
    (rustLines s).map String.data = linesAux [] s.data := by
  unfold rustLines
  rw [List.map_map]
  have : (String.data ∘ fun l : List Char => (⟨l⟩ : String)) = id := funext fun l => rfl
  rw [this, List.map_id]

theorem content_buffer_data (c : String) (hcr : ∀ ch ∈ c.data, ch ≠ '\r') :
    (strJoinNl (rustLines (c ++ "\n"))).data = c.data ++ ['\n'] := by
  rw [strJoinNl_data, map_data_rustLines, String.data_append,
    show ("\n" : String).data = ['\n'] from rfl]
  rw [joinNlL_linesAux c.data [] hcr (by simp)]
  simp

theorem rustTrim_eq_empty_iff (s : String) :
    rustTrim s = "" ↔ ∀ ch ∈ s.data, ch.isWhitespace = true := by
  unfold rustTrim rustTrimRight rustTrimLeft
  rw [String.ext_iff]
  show (((s.data.dropWhile Char.isWhitespace).reverse.dropWhile Char.isWhitespace).reverse = [])
    ↔ _
  rw [List.reverse_eq_nil_iff, List.dropWhile_eq_nil_iff]
  constructor
  · intro h ch hch
    by_cases hw : ch.isWhitespace = true
    · exact hw
    · exfalso
      have hmem : ch ∈ s.data.dropWhile Char.isWhitespace := by
        have hsplit := List.takeWhile_append_dropWhile (p := Char.isWhitespace) (l := s.data)
        rcases List.mem_append.mp (by rw [hsplit]; exact hch) with hm | hm
        · exact absurd (List.mem_takeWhile_imp hm) hw
        · exact hm
      exact hw (h ch (List.mem_reverse.mpr hmem))
  · intro h ch hch
    refine h ch ?_
    have hsplit := List.takeWhile_append_dropWhile (p := Char.isWhitespace) (l := s.data)
    rw [← hsplit]
    exact List.mem_append.mpr (Or.inr (List.mem_reverse.mp hch))

theorem rustTrim_data_congr (s t : String) (h : s.data = t.data) : rustTrim s = rustTrim t := by
  unfold rustTrim rustTrimRight rustTrimLeft
  rw [h]

theorem rustTrimRight_data_congr (s t : String) (h : s.data = t.data) :
    rustTrimRight s = rustTrimRight t := by
  unfold rustTrimRight
  rw [h]

theorem rustTrimRight_append_nl (c : String) : rustTrimRight (c ++ "\n") = rustTrimRight c := by
  unfold rustTrimRight
  rw [String.data_append, show ("\n" : String).data = ['\n'] from rfl]
  congr 1
  simp [List.reverse_append, List.dropWhile_cons,
    show Char.isWhitespace '\n' = true from by decide]

/-! ### Parser-side lemmas for the round trip -/

theorem strMk_data_eta (s : String) : (⟨s.data⟩ : String) = s := rfl

theorem dropWhile_of_all_neg (l : List Char) (h : ∀ ch ∈ l, ch.isWhitespace = false) :
    List.dropWhile Char.isWhitespace l = l := by
  cases l with
  | nil => rfl
  | cons x t =>
    rw [List.dropWhile_cons, if_neg (by rw [h x (List.mem_cons_self x t)]; simp)]

theorem rustTrim_of_no_ws (p : String) (h : ∀ ch ∈ p.data, ch.isWhitespace = false) :
    rustTrim p = p := by
  unfold rustTrim rustTrimRight rustTrimLeft
  rw [dropWhile_of_all_neg p.data h]
  show (⟨(p.data.reverse.dropWhile Char.isWhitespace).reverse⟩ : String) = p
  rw [dropWhile_of_all_neg p.data.reverse fun ch hch => h ch (List.mem_reverse.mp hch),
    List.reverse_reverse]

theorem wordsAux_cons (cur : List Char) (c : Char) (cs : List Char) :
    wordsAux cur (c :: cs)
      = if c.isWhitespace then
          (if cur.isEmpty then wordsAux [] cs else cur.reverse :: wordsAux [] cs)
        else wordsAux (c :: cur) cs := rfl

theorem wordsAux_no_ws (l : List Char) :
    ∀ cur, (∀ ch ∈ l, ch.isWhitespace = false) →
      wordsAux cur l = wordsAux (l.reverse ++ cur) [] := by
  induction l with
  | nil =>
    intro cur _
    simp
  | cons c t ih =>
    intro cur h
    rw [wordsAux_cons]
    rw [h c (List.mem_cons_self c t)]
    simp only [Bool.false_eq_true, if_false]
    rw [ih (c :: cur) fun x hx => h x (List.mem_cons_of_mem c hx)]
    congr 1
    simp

theorem splitWhitespace_single (p : String) (hne : p ≠ "")
    (h : ∀ ch ∈ p.data, ch.isWhitespace = false) : splitWhitespace p = [p] := by
  unfold splitWhitespace
  rw [wordsAux_no_ws p.data [] h, List.append_nil]
  have hd : ¬p.data.isEmpty = true := by
    intro hc
    exact hne (String.ext (List.isEmpty_iff.mp hc))
  rw [show wordsAux p.data.reverse []
      = if p.data.reverse.isEmpty then [] else [p.data.reverse.reverse] from rfl]
  rw [if_neg (by simpa using hd), List.reverse_reverse]
  simp [strMk_data_eta]

theorem rustTrimLeft_of_head (s : String) (c : Char) (t : List Char) (h : s.data = c :: t)
    (hc : c.isWhitespace = false) : rustTrimLeft s = s := by
  unfold rustTrimLeft
  rw [h, List.dropWhile_cons, hc]
  simp only [Bool.false_eq_true, if_false]
  rw [← h]

theorem extract_path_from_fence_of_token (p : String) (hne : p ≠ "")
    (hws : ∀ ch ∈ p.data, ch.isWhitespace = false)
    (hpd : (rustContainsChar p '/' || rustContainsChar p '.') = true) :
    extract_path_from_fence ("```" ++ p) "```" = some p := by
  have hdata : (("```" ++ p) : String).data = '`' :: '`' :: '`' :: p.data := by
    rw [String.data_append]
    rfl
  have htl : rustTrimLeft ("```" ++ p) = "```" ++ p :=
    rustTrimLeft_of_head _ '`' _ hdata (by decide)
  have hpre : (("```" : String).data.isPrefixOf (("```" ++ p) : String).data) = true := by
    rw [String.data_append, List.isPrefixOf_iff_prefix]
    exact List.prefix_append _ _
  have hdrop : (("```" ++ p) : String).data.drop ("```" : String).data.length = p.data := by
    rw [String.data_append]
    exact List.drop_left _ _
  have hstrip : rustStripPre (rustTrimLeft ("```" ++ p)) "```" = some p := by
    rw [htl]
    unfold rustStripPre
    rw [if_pos hpre]
    exact congrArg some (String.ext hdrop)
  have htr : rustTrim p = p := rustTrim_of_no_ws p hws
  rw [extract_path_from_fence_shape ("```" ++ p) p hstrip (by rw [htr]; exact hne)]
  rw [htr, splitWhitespace_single p hne hws]
  simp [hpd]

theorem parseStep_open_fence (s : PState) (hst : s.state = ParserState.ExpectingPath)
    (p : String) (hne : p ≠ "") (hws : ∀ ch ∈ p.data, ch.isWhitespace = false)
    (hpd : (rustContainsChar p '/' || rustContainsChar p '.') = true) :
    parseStep "```" s ("```" ++ p)
      = ⟨ParserState.InCodeBlock, some p, "", s.blocks⟩ := by
  obtain ⟨st, ctp, ccb, bl⟩ := s
  cases hst
  have hdata : (("```" ++ p) : String).data = '`' :: '`' :: '`' :: p.data := by
    rw [String.data_append]
    rfl
  have htl : rustTrimLeft ("```" ++ p) = "```" ++ p :=
    rustTrimLeft_of_head _ '`' _ hdata (by decide)
  have hsw : rustStartsWith (rustTrimLeft ("```" ++ p)) "```" = true := by
    rw [htl]
    show (("```" : String).data.isPrefixOf (("```" ++ p) : String).data) = true
    rw [String.data_append, List.isPrefixOf_iff_prefix]
    exact List.prefix_append _ _
  simp [parseStep, hsw, extract_path_from_fence_of_token p hne hws hpd]

theorem parseStep_incode_push (ctp : Option String) (ccb : String) (bl : List CodeBlock)
    (x : String) (hx : rustStartsWith (rustTrimLeft x) "```" = false) :
    parseStep "```" ⟨ParserState.InCodeBlock, ctp, ccb, bl⟩ x
      = ⟨ParserState.InCodeBlock, ctp, ccb ++ x ++ "\n", bl⟩ := by
  simp [parseStep, hx]

theorem foldl_incode_nonfence (ls : List String)
    (h : ∀ l ∈ ls, rustStartsWith (rustTrimLeft l) "```" = false) :
    ∀ (ctp : Option String) (ccb : String) (bl : List CodeBlock),
      ls.foldl (parseStep "```") ⟨ParserState.InCodeBlock, ctp, ccb, bl⟩
        = ⟨ParserState.InCodeBlock, ctp, ccb ++ strJoinNl ls, bl⟩ := by
  induction ls with
  | nil =>
    intro ctp ccb bl
    simp [strJoinNl]
  | cons x t ih =>
    intro ctp ccb bl
    rw [List.foldl_cons, parseStep_incode_push ctp ccb bl x (h x (List.mem_cons_self x t)),
      ih (fun l hl => h l (List.mem_cons_of_mem x hl)) ctp (ccb ++ x ++ "\n") bl]
    rw [show strJoinNl (x :: t) = x ++ "\n" ++ strJoinNl t from rfl]
    simp [String.append_assoc]

theorem parseStep_empty_line (ctp : Option String) (ccb : String) (bl : List CodeBlock) :
    parseStep "```" ⟨ParserState.ExpectingPath, ctp, ccb, bl⟩ ""
      = ⟨ParserState.ExpectingPath, ctp, ccb, bl⟩ := by
  simp [parseStep, show rustStartsWith (rustTrimLeft "") "```" = false from by decide,
    show is_path_line "" = false from by decide, show rustTrim "" = "" from rfl]

/-! ### Fragment structure of the serialized document -/

theorem foldl_fragment (p c : String) (s : PState)
    (hst : s.state = ParserState.ExpectingPath)
    (hne : p ≠ "") (hws : ∀ ch ∈ p.data, ch.isWhitespace = false)
    (hpd : (rustContainsChar p '/' || rustContainsChar p '.') = true)
    (hcne : rustTrim c ≠ "") (hcr : ∀ ch ∈ c.data, ch ≠ '\r')
    (hcf : ∀ l ∈ rustLines (c ++ "\n"), rustStartsWith (rustTrimLeft l) "```" = false) :
    (fragLines p c).foldl (parseStep "```") s
      = ⟨ParserState.ExpectingPath, none, "", s.blocks ++ [⟨p, rustTrimRight c⟩]⟩ := by
  rw [show fragLines p c = ("```" ++ p) :: (rustLines (c ++ "\n") ++ ["```", ""]) from rfl]
  rw [List.foldl_cons, parseStep_open_fence s hst p hne hws hpd, List.foldl_append]
  rw [foldl_incode_nonfence (rustLines (c ++ "\n")) hcf (some p) "" s.blocks,
    String.empty_append]
  rw [List.foldl_cons, List.foldl_cons, List.foldl_nil]
  rw [parseStep_close ⟨ParserState.InCodeBlock, some p,
    strJoinNl (rustLines (c ++ "\n")), s.blocks⟩ rfl]
  have hbufdata : (strJoinNl (rustLines (c ++ "\n"))).data = c.data ++ ['\n'] :=
    content_buffer_data c hcr
  have htr_ne : rustTrim (strJoinNl (rustLines (c ++ "\n"))) ≠ "" := by
    have hcongr : rustTrim (strJoinNl (rustLines (c ++ "\n"))) = rustTrim (c ++ "\n") :=
      rustTrim_data_congr _ _ (by rw [hbufdata, String.data_append])
    rw [hcongr]
    intro hcontra
    apply hcne
    rw [rustTrim_eq_empty_iff] at hcontra ⊢
    intro ch hch
    exact hcontra ch (by rw [String.data_append]; exact List.mem_append.mpr (Or.inl hch))
  have htrr : rustTrimRight (strJoinNl (rustLines (c ++ "\n"))) = rustTrimRight c := by
    have hcongr : rustTrimRight (strJoinNl (rustLines (c ++ "\n")))
        = rustTrimRight (c ++ "\n") :=
      rustTrimRight_data_congr _ _ (by rw [hbufdata, String.data_append])
    rw [hcongr, rustTrimRight_append_nl]
  have hfin : finalize_current_block ⟨ParserState.InCodeBlock, some p,
      strJoinNl (rustLines (c ++ "\n")), s.blocks⟩
      = ⟨ParserState.InCodeBlock, none, "", s.blocks ++ [⟨p, rustTrimRight c⟩]⟩ := by
    unfold finalize_current_block
    simp only []
    rw [if_pos htr_ne, htrr]
  rw [hfin]
  show parseStep "```" ⟨ParserState.ExpectingPath, none, "",
    s.blocks ++ [⟨p, rustTrimRight c⟩]⟩ "" = _
  exact parseStep_empty_line none "" (s.blocks ++ [⟨p, rustTrimRight c⟩])

theorem foldl_fragLinesAll (F : List (String × String))
    (hF : ∀ f ∈ F, WellFormedFile f) :
    ∀ s : PState, s.state = ParserState.ExpectingPath →
      ((fragLinesAll F).foldl (parseStep "```") s).state = ParserState.ExpectingPath ∧
      ((fragLinesAll F).foldl (parseStep "```") s).blocks
        = s.blocks ++ F.map fun f => (⟨f.1, rustTrimRight f.2⟩ : CodeBlock) := by
  induction F with
  | nil =>
    intro s hs
    exact ⟨hs, by simp [fragLinesAll]⟩
  | cons f t ih =>
    intro s hs
    rw [show fragLinesAll (f :: t) = fragLines f.1 f.2 ++ fragLinesAll t from rfl,
      List.foldl_append]
    obtain ⟨h1, h2, h3, h4, h5, h6⟩ := hF f (List.mem_cons_self f t)
    rw [foldl_fragment f.1 f.2 s hs h1 h2 h3 h4 h5 h6]
    have hrec := ih (fun g hg => hF g (List.mem_cons_of_mem f hg))
      ⟨ParserState.ExpectingPath, none, "", s.blocks ++ [⟨f.1, rustTrimRight f.2⟩]⟩ rfl
    refine ⟨hrec.1, ?_⟩
    rw [hrec.2]
    simp

theorem rustLines_process_file (p c : String)
    (hws : ∀ ch ∈ p.data, ch.isWhitespace = false) :
    rustLines (process_file "```" p c) = fragLines p c := by
  have hregroup : process_file "```" p c
      = ("```" ++ p ++ "\n") ++ ((c ++ "\n") ++ ("```" ++ "\n\n")) := by
    unfold process_file
    simp [String.append_assoc]
  have ha : (("```" ++ p ++ "\n") : String).data
      = (("```" : String).data ++ p.data) ++ ['\n'] := by
    rw [String.data_append, String.data_append]
  have hnl : ∀ ch ∈ ("```" : String).data ++ p.data, ch ≠ '\n' := by
    intro ch hch heq
    rcases List.mem_append.mp hch with hm | hm
    · revert hm
      subst heq
      decide
    · have := hws ch hm
      rw [heq] at this
      exact absurd this (by decide)
  have hcr : ∀ ch ∈ ("```" : String).data ++ p.data, ch ≠ '\r' := by
    intro ch hch heq
    rcases List.mem_append.mp hch with hm | hm
    · revert hm
      subst heq
      decide
    · have := hws ch hm
      rw [heq] at this
      exact absurd this (by decide)
  have hfirst : rustLines ("```" ++ p ++ "\n") = ["```" ++ p] := by
    unfold rustLines
    rw [ha, linesAux_single _ hnl hcr, ← String.data_append]
    rfl
  have hlast : rustLines ("```" ++ "\n\n") = ["```", ""] := by decide
  rw [hregroup, rustLines_append_of_trailNl _ _ (("```" : String).data ++ p.data) ha,
    rustLines_append_of_trailNl (c ++ "\n") _ c.data (by rw [String.data_append]),
    hfirst, hlast]
  rfl

theorem rustLines_serializeFiles (F : List (String × String))
    (hws : ∀ f ∈ F, ∀ ch ∈ f.1.data, ch.isWhitespace = false) :
    rustLines (serializeFiles "```" F) = fragLinesAll F := by
  induction F with
  | nil => rfl
  | cons f t ih =>
    have hstep : serializeFiles "```" (f :: t)
        = process_file "```" f.1 f.2 ++ serializeFiles "```" t := rfl
    have ha : (process_file "```" f.1 f.2).data
        = (("```" ++ f.1 ++ "\n" ++ f.2 ++ "\n" ++ "```" ++ "\n") : String).data ++ ['\n'] := by
      unfold process_file
      rw [show ("\n\n" : String) = "\n" ++ "\n" from rfl, ← String.append_assoc,
        String.data_append]
    rw [hstep, rustLines_append_of_trailNl _ _ _ ha]
    have hfrag : rustLines (process_file "```" f.1 f.2) = fragLines f.1 f.2 :=
      rustLines_process_file f.1 f.2 (hws f (List.mem_cons_self f t))
    rw [hfrag, ih fun g hg => hws g (List.mem_cons_of_mem f hg)]
    rfl

/-- C2 (amended): serializing a list of files (each with a non-empty,
whitespace-free path containing a `/` or `.`, and contents that are not
whitespace-only, contain no carriage return, and have no line starting
with the delimiter) behind any fence-free header, then parsing the
document, yields one block per file whose restored content is the
original content with TRAILING WHITESPACE TRIMMED — byte-identical
exactly when the content has no trailing whitespace, so trailing
newlines and trailing blank lines are not restored. -/
theorem c2_roundtrip_restores_trimmed_content (header : String)
    (F : List (String × String))
    (hh1 : header = "" ∨ ∃ a, header.data = a ++ ['\n'])
    (hh2 : ∀ l ∈ rustLines header, rustStartsWith (rustTrimLeft l) "```" = false)
    (hF : ∀ f ∈ F, WellFormedFile f) :
    parse (header ++ serializeFiles "```" F)
      = F.map fun f => (⟨f.1, rustTrimRight f.2⟩ : CodeBlock) := by
  have hws : ∀ f ∈ F, ∀ ch ∈ f.1.data, ch.isWhitespace = false :=
    fun f hf => (hF f hf).2.1
  have hsplit : rustLines (header ++ serializeFiles "```" F)
      = rustLines header ++ fragLinesAll F := by
    rcases hh1 with h | ⟨a, ha⟩
    · subst h
      rw [String.empty_append, rustLines_serializeFiles F hws,
        show rustLines "" = ([] : List String) from rfl, List.nil_append]
    · rw [rustLines_append_of_trailNl header _ a ha, rustLines_serializeFiles F hws]
  unfold parse parseWith parseLinesWith
  rw [hsplit, List.foldl_append]
  have hhead := foldl_expecting_nonfence "```" (rustLines header) hh2 PState.init rfl
  have hfrag := foldl_fragLinesAll F hF _ hhead.1
  rw [if_neg (by rw [hfrag.1]; simp)]
  rw [hfrag.2, hhead.2.1]
  rfl

/-- C2 counterexample: a file whose content ends in a newline is NOT
restored byte-identically — the serialized document parses back to the
content with the trailing newline trimmed, and the injector writes
exactly those trimmed bytes. -/
theorem c2_trailing_newline_not_restored_cex :
    parse (serializeFiles "```" [("a.txt", "hello\n")]) = [⟨"a.txt", "hello"⟩] ∧
    injectDoc envAllOk "R" (serializeFiles "```" [("a.txt", "hello\n")]) ⟨true, ["r"]⟩
      = ([FsOp.writeFile ⟨true, ["r", ".a.txt.tmp.R"]⟩ "hello",
          FsOp.rename ⟨true, ["r", ".a.txt.tmp.R"]⟩ ⟨true, ["r", "a.txt"]⟩],
         Except.ok ()) ∧
    ("hello" : String) ≠ "hello\n" := by
  refine ⟨by decide, by decide, by decide⟩

/-- Witness for C2 (amended) at a concrete one-file set. -/
theorem c2_roundtrip_restores_trimmed_content_witness :
    parse ("" ++ serializeFiles "```" [("src/a.txt", "hi")])
      = [⟨"src/a.txt", rustTrimRight "hi"⟩] :=
  c2_roundtrip_restores_trimmed_content "" [("src/a.txt", "hi")] (Or.inl rfl)
    (by decide)
    (by
      intro f hf
      simp only [List.mem_singleton] at hf
      subst hf
      exact ⟨by decide, by decide, by decide, by decide, by decide, by decide⟩)
